import Mathlib

/-!
# Verification of the skyline GPU buffer core (`gpu/buffer.cpp`)

This file gives a shallow embedding of the guest/host buffer virtualization
core found in `app/src/main/cpp/skyline/gpu/buffer.cpp` and proves the
spec-level properties about it.

The embedding follows the source:

* guest addresses and byte values are `Nat`;
* a guest `span<u8>` becomes a `Mapping` (base address and size);
* `Buffer::SetupGuestMappings` becomes a pure function computing the list of
  aligned spans handed to `CreateMirror(s)` plus the logical mirror sub-range;
* guest memory is a function `Nat → Nat`, the host backing a `List Nat`;
* the synchronization routines become state transformers on a record holding
  guest memory, host backing and the (weak) pending fence cycle;
* the view cache and the `BufferView` locking protocol become an explicit
  list of weak entries, respectively a small-step transition system whose
  environment steps model atomic replacement of the view's buffer reference.
-/

namespace Skyline

/-- Page granularity of the mirror mapping service (`PAGE_SIZE`). -/
def PAGE_SIZE : Nat := 4096

/-- `util::AlignDown(n, align)` for a power-of-two alignment: truncate to a
multiple of `align`. -/
def alignDown (n align : Nat) : Nat := n / align * align

/-- `util::AlignUp(n, align)`: round up to a multiple of `align`. -/
def alignUp (n align : Nat) : Nat := alignDown (n + align - 1) align

/-- One guest memory span (`span<u8>`): base address and length in bytes. -/
structure Mapping where
  addr : Nat
  size : Nat
deriving DecidableEq

/-- `GuestBuffer`: the ordered list of guest spans backing one logical
buffer. -/
structure GuestBuffer where
  mappings : List Mapping
deriving DecidableEq

/-- Sum of span sizes, as a plain map-and-sum. -/
def sumSizes (ms : List Mapping) : Nat := (ms.map Mapping.size).sum

/-- `GuestBuffer::BufferSize`: fold over the mappings accumulating
`size_bytes()`. -/
def GuestBuffer.BufferSize (g : GuestBuffer) : Nat :=
  g.mappings.foldl (fun acc m => acc + m.size) 0

/-- Result of `Buffer::SetupGuestMappings`: the list of spans passed to the
mirror mapping service, and the logical mirror sub-range (`subspan` offset
and size) within the returned contiguous mapping. -/
structure MirrorSetup where
  alignedMappings : List Mapping
  mirrorOffset : Nat
  mirrorSize : Nat
deriving DecidableEq

/-- `Buffer::SetupGuestMappings`, translated from the source.  The empty
mapping list is undefined behaviour in the source (`mappings.front()` on an
empty container) and is modelled as `none`. -/
def SetupGuestMappings (g : GuestBuffer) : Option MirrorSetup :=
  match g.mappings with
  | [] => none
  | [m] =>
      let alignedData := alignDown m.addr PAGE_SIZE
      let alignedSize := alignUp (m.addr + m.size) PAGE_SIZE - alignedData
      some ⟨[⟨alignedData, alignedSize⟩], m.addr - alignedData, m.size⟩
  | f :: r :: rs =>
      let rest := r :: rs
      let alignedData := alignDown f.addr PAGE_SIZE
      let frontSpan : Mapping := ⟨alignedData, f.addr + f.size - alignedData⟩
      let internals := rest.dropLast
      let b := rest.getLast (List.cons_ne_nil r rs)
      let backSpan : Mapping := ⟨b.addr, alignUp b.size PAGE_SIZE⟩
      let totalSize := internals.foldl (fun acc m => acc + m.size) f.size + b.size
      some ⟨frontSpan :: (internals ++ [backSpan]), f.addr - alignedData, totalSize⟩

/-- Formalisation of the spec's construction algorithm, stated from the
spec's words for comparison with `SetupGuestMappings`: in the multi-region
case, align only the first region's start down and the last region's *end*
up to page boundaries, pass internal regions through unaligned, and let the
logical mirror be the sub-range from the first region's true start covering
the true extent of all regions. -/
def SetupGuestMappingsSpec (g : GuestBuffer) : Option MirrorSetup :=
  match g.mappings with
  | [] => none
  | [m] =>
      let alignedData := alignDown m.addr PAGE_SIZE
      let alignedSize := alignUp (m.addr + m.size) PAGE_SIZE - alignedData
      some ⟨[⟨alignedData, alignedSize⟩], m.addr - alignedData, m.size⟩
  | f :: r :: rs =>
      let rest := r :: rs
      let alignedData := alignDown f.addr PAGE_SIZE
      let frontSpan : Mapping := ⟨alignedData, f.addr + f.size - alignedData⟩
      let internals := rest.dropLast
      let b := rest.getLast (List.cons_ne_nil r rs)
      let backSpan : Mapping := ⟨b.addr, alignUp (b.addr + b.size) PAGE_SIZE - b.addr⟩
      some ⟨frontSpan :: (internals ++ [backSpan]), f.addr - alignedData,
        sumSizes (f :: r :: rs)⟩

lemma alignDown_le (n : Nat) : alignDown n PAGE_SIZE ≤ n :=
  Nat.div_mul_le_self n PAGE_SIZE

lemma le_alignUp (n : Nat) : n ≤ alignUp n PAGE_SIZE := by
  unfold alignUp alignDown PAGE_SIZE
  omega

lemma sumSizes_cons (m : Mapping) (ms : List Mapping) :
    sumSizes (m :: ms) = m.size + sumSizes ms := by
  simp [sumSizes]

lemma sumSizes_append (l1 l2 : List Mapping) :
    sumSizes (l1 ++ l2) = sumSizes l1 + sumSizes l2 := by
  simp [sumSizes]

lemma foldl_size_eq (ms : List Mapping) (a : Nat) :
    ms.foldl (fun acc m => acc + m.size) a = a + sumSizes ms := by
  induction ms generalizing a with
  | nil => simp [sumSizes]
  | cons m ms ih => simp only [List.foldl_cons, ih, sumSizes_cons]; omega

lemma BufferSize_eq_sumSizes (g : GuestBuffer) : g.BufferSize = sumSizes g.mappings := by
  simp [GuestBuffer.BufferSize, foldl_size_eq]

/-- Resolve a flat offset inside the contiguous concatenation of a list of
guest spans: the address aliased by offset `o` of the (virtually contiguous)
mapping built over the spans in order. -/
def concatAddr : List Mapping → Nat → Option Nat
  | [], _ => none
  | m :: rest, o => if o < m.size then some (m.addr + o) else concatAddr rest (o - m.size)

/-- Sum of the sizes of the first `k` spans: the flat offset at which span
`k`'s bytes start. -/
def prefixLen (ms : List Mapping) (k : Nat) : Nat := sumSizes (ms.take k)

lemma concatAddr_get (ms : List Mapping) (k : Nat) (hk : k < ms.length) (o : Nat)
    (h1 : prefixLen ms k ≤ o) (h2 : o < prefixLen ms k + (ms.get ⟨k, hk⟩).size) :
    concatAddr ms o = some ((ms.get ⟨k, hk⟩).addr + (o - prefixLen ms k)) := by
  induction ms generalizing k o with
  | nil => exact absurd hk (by simp)
  | cons m rest ih =>
    cases k with
    | zero =>
      have h2' : o < m.size := by simpa [prefixLen, sumSizes] using h2
      simp [concatAddr, h2', prefixLen, sumSizes]
    | succ k =>
      have hk' : k < rest.length := by simpa using hk
      have hpre : prefixLen (m :: rest) (k + 1) = m.size + prefixLen rest k := by
        simp [prefixLen, sumSizes_cons]
      rw [hpre] at h1 h2
      have hget : (m :: rest).get ⟨k + 1, hk⟩ = rest.get ⟨k, hk'⟩ := rfl
      rw [hget] at h2 ⊢
      have hos : ¬ o < m.size := by omega
      have hrec := ih k hk' (o - m.size) (by omega) (by omega)
      simp only [concatAddr, if_neg hos]
      rw [hrec, hpre]
      congr 2
      omega

lemma concatAddr_isSome (ms : List Mapping) (o : Nat) (h : o < sumSizes ms) :
    (concatAddr ms o).isSome := by
  induction ms generalizing o with
  | nil => simp [sumSizes] at h
  | cons m rest ih =>
    by_cases ho : o < m.size
    · simp [concatAddr, ho]
    · rw [sumSizes_cons] at h
      simp only [concatAddr, if_neg ho]
      exact ih (o - m.size) (by omega)

lemma concatAddr_pad_last (tail : List Mapping) (b : Mapping) (s' : Nat) (hs : b.size ≤ s')
    (j : Nat) (hj : j < sumSizes (tail ++ [b])) :
    concatAddr (tail ++ [⟨b.addr, s'⟩]) j = concatAddr (tail ++ [b]) j := by
  induction tail generalizing j with
  | nil =>
    have hjb : j < b.size := by simpa [sumSizes] using hj
    simp [concatAddr, hjb, Nat.lt_of_lt_of_le hjb hs]
  | cons m tail ih =>
    by_cases hm : j < m.size
    · simp [concatAddr, hm]
    · rw [List.cons_append, sumSizes_cons] at hj
      simp only [List.cons_append, concatAddr, if_neg hm]
      exact ih (j - m.size) (by omega)

/-- Length of the logical `mirror` span produced by `SetupGuestMappings`. -/
def mirrorSize (g : GuestBuffer) : Nat :=
  match SetupGuestMappings g with
  | none => 0
  | some ms => ms.mirrorSize

/-- Guest address aliased by flat offset `o` of the logical mirror
(`mirror[o]`): resolve `mirrorOffset + o` inside the concatenation of the
aligned spans handed to the mirror mapping service.  `none` models an access
outside the logical mirror. -/
def mirrorAddr (g : GuestBuffer) (o : Nat) : Option Nat :=
  match SetupGuestMappings g with
  | none => none
  | some ms =>
      if o < ms.mirrorSize then concatAddr ms.alignedMappings (ms.mirrorOffset + o) else none

lemma alignUp_sub_of_aligned (a s : Nat) (h : a % PAGE_SIZE = 0) :
    alignUp (a + s) PAGE_SIZE - a = alignUp s PAGE_SIZE := by
  unfold alignUp alignDown PAGE_SIZE at *
  omega

lemma mirrorSize_eq (g : GuestBuffer) (h : g.mappings ≠ []) :
    mirrorSize g = sumSizes g.mappings := by
  obtain ⟨ms⟩ := g
  match ms with
  | [] => exact absurd rfl h
  | [m] => simp [mirrorSize, SetupGuestMappings, sumSizes]
  | f :: r :: rs =>
    have hne : (r :: rs) ≠ [] := List.cons_ne_nil r rs
    have hdecomp : (r :: rs).dropLast ++ [(r :: rs).getLast hne] = r :: rs :=
      List.dropLast_append_getLast hne
    simp only [mirrorSize, SetupGuestMappings, foldl_size_eq]
    have hsum : sumSizes ((r :: rs).dropLast ++ [(r :: rs).getLast hne]) = sumSizes (r :: rs) := by
      rw [hdecomp]
    rw [sumSizes_append] at hsum
    have hb : sumSizes [(r :: rs).getLast hne] = ((r :: rs).getLast hne).size := by
      simp [sumSizes]
    rw [sumSizes_cons]
    omega

lemma mirrorAddr_eq_concatAddr (g : GuestBuffer) (o : Nat) (ho : o < sumSizes g.mappings) :
    mirrorAddr g o = concatAddr g.mappings o := by
  obtain ⟨ms⟩ := g
  match ms with
  | [] => simp [sumSizes] at ho
  | [m] =>
    have ho' : o < m.size := by simpa [sumSizes] using ho
    have h1 := alignDown_le m.addr
    have h2 := le_alignUp (m.addr + m.size)
    simp only [mirrorAddr, SetupGuestMappings, if_pos ho', concatAddr]
    rw [if_pos (by omega)]
    congr 1
    omega
  | f :: r :: rs =>
    have hne : (r :: rs) ≠ [] := List.cons_ne_nil r rs
    have hdecomp : (r :: rs).dropLast ++ [(r :: rs).getLast hne] = r :: rs :=
      List.dropLast_append_getLast hne
    have hAle := alignDown_le f.addr
    have hbs := le_alignUp ((r :: rs).getLast hne).size
    -- the total size computed by the source loop is the sum of all sizes
    have htot : (r :: rs).dropLast.foldl (fun acc m => acc + m.size) f.size +
        ((r :: rs).getLast hne).size = sumSizes (f :: r :: rs) := by
      rw [foldl_size_eq]
      have hsum : sumSizes ((r :: rs).dropLast ++ [(r :: rs).getLast hne]) =
          sumSizes (r :: rs) := by rw [hdecomp]
      rw [sumSizes_append] at hsum
      have hb : sumSizes [(r :: rs).getLast hne] = ((r :: rs).getLast hne).size := by
        simp [sumSizes]
      rw [sumSizes_cons]
      omega
    simp only [mirrorAddr, SetupGuestMappings]
    rw [htot, if_pos ho]
    rw [sumSizes_cons] at ho
    by_cases hof : o < f.size
    · simp only [concatAddr]
      rw [if_pos (by omega : f.addr - alignDown f.addr PAGE_SIZE + o <
        f.addr + f.size - alignDown f.addr PAGE_SIZE)]
      rw [if_pos hof]
      congr 1
      omega
    · simp only [concatAddr]
      rw [if_neg (by omega : ¬ (f.addr - alignDown f.addr PAGE_SIZE + o <
        f.addr + f.size - alignDown f.addr PAGE_SIZE))]
      rw [if_neg hof]
      have hidx : f.addr - alignDown f.addr PAGE_SIZE + o -
          (f.addr + f.size - alignDown f.addr PAGE_SIZE) = o - f.size := by omega
      rw [hidx]
      have hbound : o - f.size <
          sumSizes ((r :: rs).dropLast ++ [(r :: rs).getLast hne]) := by
        rw [hdecomp]; omega
      rw [concatAddr_pad_last _ _ _ hbs _ hbound, hdecomp]
      simp only [concatAddr]

/-- C1 (counterexample): for the two-region set with spans `[100, 150)` and
`[500, 600)` the source's `SetupGuestMappings` aligns the *size* of the last
region up from its (unaligned) start, producing the span `[500, 500 + 4096)`,
whereas the claim's algorithm aligns the last region's *end* up to a page
boundary, producing `[500, 4096)`.  The construction therefore does not build
the guest mirror per the claim's algorithm at this input. -/
theorem SetupGuestMappings_back_alignment_cex :
    SetupGuestMappings ⟨[⟨100, 50⟩, ⟨500, 100⟩]⟩ ≠
      SetupGuestMappingsSpec ⟨[⟨100, 50⟩, ⟨500, 100⟩]⟩ ∧
    SetupGuestMappings ⟨[⟨100, 50⟩, ⟨500, 100⟩]⟩ =
      some ⟨[⟨0, 150⟩, ⟨500, 4096⟩], 100, 150⟩ := by
  exact ⟨by decide, by decide⟩

/-- C1 (amended): `SetupGuestMappings` builds the guest mirror per the spec's
algorithm — single-region sets unconditionally (start aligned down, end
aligned up, logical mirror the sub-range of the aligned mapping matching the
unaligned region), and multi-region sets whenever the last region's start is
page-aligned; in the multi-region case only the first region's start is
aligned down, internal regions pass through unaligned, the last region's
extent is rounded up to a whole number of pages, and the logical mirror is
the sub-range from the first region's true start covering the true extent of
all regions. -/
theorem SetupGuestMappings_matches_spec (g : GuestBuffer)
    (h : g.mappings.length = 1 ∨
      ∃ b, g.mappings.getLast? = some b ∧ b.addr % PAGE_SIZE = 0) :
    SetupGuestMappings g = SetupGuestMappingsSpec g := by
  obtain ⟨ms⟩ := g
  match ms with
  | [] => rfl
  | [m] => rfl
  | f :: r :: rs =>
    rcases h with h1 | ⟨b, hb, hal⟩
    · simp at h1
    · have hne : (r :: rs) ≠ [] := List.cons_ne_nil r rs
      have hlast : (f :: r :: rs).getLast? = some ((r :: rs).getLast hne) := by
        rw [List.getLast?_eq_getLast _ (List.cons_ne_nil f (r :: rs))]
        exact congrArg some (List.getLast_cons hne)
      rw [hlast] at hb
      have hbeq : b = (r :: rs).getLast hne := by injection hb.symm
      rw [hbeq] at hal
      have hback := alignUp_sub_of_aligned ((r :: rs).getLast hne).addr
        ((r :: rs).getLast hne).size hal
      have hdecomp : (r :: rs).dropLast ++ [(r :: rs).getLast hne] = r :: rs :=
        List.dropLast_append_getLast hne
      have htot : (r :: rs).dropLast.foldl (fun acc m => acc + m.size) f.size +
          ((r :: rs).getLast hne).size = sumSizes (f :: r :: rs) := by
        rw [foldl_size_eq]
        have hsum : sumSizes ((r :: rs).dropLast ++ [(r :: rs).getLast hne]) =
            sumSizes (r :: rs) := by rw [hdecomp]
        rw [sumSizes_append] at hsum
        have hb2 : sumSizes [(r :: rs).getLast hne] = ((r :: rs).getLast hne).size := by
          simp [sumSizes]
        rw [sumSizes_cons]
        omega
      simp only [SetupGuestMappings, SetupGuestMappingsSpec]
      rw [hback, htot]

/-- C1 (witness): a concrete two-region set whose last region starts on a
page boundary, where the construction coincides with the spec's algorithm. -/
theorem SetupGuestMappings_matches_spec_witness :
    (∃ b, (⟨[⟨100, 50⟩, ⟨4096, 100⟩]⟩ : GuestBuffer).mappings.getLast? = some b ∧
      b.addr % PAGE_SIZE = 0) ∧
    SetupGuestMappings ⟨[⟨100, 50⟩, ⟨4096, 100⟩]⟩ =
      SetupGuestMappingsSpec ⟨[⟨100, 50⟩, ⟨4096, 100⟩]⟩ :=
  ⟨⟨⟨4096, 100⟩, by decide, by decide⟩,
    SetupGuestMappings_matches_spec _ (Or.inr ⟨⟨4096, 100⟩, by decide, by decide⟩)⟩

/-- Guest memory: the byte stored at each guest address. -/
def Mem := Nat → Nat

/-- `Buffer::Write(data, offset)`: `std::memcpy(mirror.data() + offset,
data.data(), data.size())` — copy `data` byte-for-byte into the logical
mirror starting at flat offset `offset`, with no bounds check.  A byte
falling outside the logical mirror is an out-of-bounds access in the source
and is modelled as `none`. -/
def Write (g : GuestBuffer) (mem : Mem) (offset : Nat) : List Nat → Option Mem
  | [] => some mem
  | byte :: rest =>
      match mirrorAddr g offset with
      | none => none
      | some a => Write g (fun x => if x = a then byte else mem x) (offset + 1) rest

lemma prefixLen_add_get_le (ms : List Mapping) (k : Nat) (hk : k < ms.length) :
    prefixLen ms k + (ms.get ⟨k, hk⟩).size ≤ sumSizes ms := by
  induction ms generalizing k with
  | nil => simp at hk
  | cons m rest ih =>
    cases k with
    | zero =>
      show (0 : Nat) + m.size ≤ sumSizes (m :: rest)
      rw [sumSizes_cons]
      omega
    | succ k =>
      have hk' : k < rest.length := by simpa using hk
      have hrec := ih k hk'
      have hpre : prefixLen (m :: rest) (k + 1) = m.size + prefixLen rest k := by
        simp [prefixLen, sumSizes_cons]
      have hget : (m :: rest).get ⟨k + 1, hk⟩ = rest.get ⟨k, hk'⟩ := rfl
      rw [hpre, hget, sumSizes_cons]
      omega

lemma mirrorAddr_isSome (g : GuestBuffer) (o : Nat) (h : o < mirrorSize g) :
    (mirrorAddr g o).isSome := by
  obtain ⟨ms⟩ := g
  have hne : ms ≠ [] := by
    intro hnil
    subst hnil
    simp [mirrorSize, SetupGuestMappings] at h
  rw [mirrorSize_eq ⟨ms⟩ hne] at h
  rw [mirrorAddr_eq_concatAddr ⟨ms⟩ o h]
  exact concatAddr_isSome _ _ h

lemma mirrorAddr_none (g : GuestBuffer) (o : Nat) (h : mirrorSize g ≤ o) :
    mirrorAddr g o = none := by
  unfold mirrorSize at h
  unfold mirrorAddr
  cases hset : SetupGuestMappings g with
  | none => rfl
  | some ms =>
    rw [hset] at h
    dsimp only at h ⊢
    rw [if_neg (by omega)]

lemma Write_isSome (g : GuestBuffer) (data : List Nat) :
    ∀ (mem : Mem) (offset : Nat), offset + data.length ≤ mirrorSize g →
      (Write g mem offset data).isSome := by
  induction data with
  | nil => intro mem offset _; simp [Write]
  | cons byte rest ih =>
    intro mem offset hle
    rw [List.length_cons] at hle
    have hlt : offset < mirrorSize g := by omega
    obtain ⟨a, ha⟩ := Option.isSome_iff_exists.mp (mirrorAddr_isSome g offset hlt)
    simp only [Write, ha]
    exact ih _ (offset + 1) (by omega)

lemma Write_none (g : GuestBuffer) (data : List Nat) :
    ∀ (mem : Mem) (offset : Nat), data ≠ [] → mirrorSize g < offset + data.length →
      Write g mem offset data = none := by
  induction data with
  | nil => intro _ _ hne _; exact absurd rfl hne
  | cons byte rest ih =>
    intro mem offset _ hgt
    rw [List.length_cons] at hgt
    by_cases hcase : offset < mirrorSize g
    · obtain ⟨a, ha⟩ := Option.isSome_iff_exists.mp (mirrorAddr_isSome g offset hcase)
      simp only [Write, ha]
      have hrne : rest ≠ [] := by
        intro hnil
        subst hnil
        simp at hgt
        omega
      exact ih _ (offset + 1) hrne (by omega)
    · simp only [Write, mirrorAddr_none g offset (by omega)]

/-- C6: the constructed Buffer's size is the sum of the region lengths, and
a `Write` at flat offset `o` lands in region `k` at local offset
`o - sum(l0..l(k-1))`, where `k` is the region whose cumulative-length
interval contains `o`: the mirror aliases flat offset `o` to the guest
address `addr_k + (o - prefix_k)`, and writing one byte there stores it at
exactly that guest address. -/
theorem Buffer_size_and_Write_flat_offset (g : GuestBuffer) (k o : Nat)
    (hk : k < g.mappings.length)
    (hlo : prefixLen g.mappings k ≤ o)
    (hhi : o < prefixLen g.mappings k + (g.mappings.get ⟨k, hk⟩).size) :
    g.BufferSize = sumSizes g.mappings ∧
    mirrorAddr g o = some ((g.mappings.get ⟨k, hk⟩).addr + (o - prefixLen g.mappings k)) ∧
    ∀ (mem : Mem) (byte : Nat), ∃ mem', Write g mem o [byte] = some mem' ∧
      mem' ((g.mappings.get ⟨k, hk⟩).addr + (o - prefixLen g.mappings k)) = byte := by
  have hos : o < sumSizes g.mappings := by
    have := prefixLen_add_get_le g.mappings k hk
    omega
  have haddr : mirrorAddr g o =
      some ((g.mappings.get ⟨k, hk⟩).addr + (o - prefixLen g.mappings k)) := by
    rw [mirrorAddr_eq_concatAddr g o hos]
    exact concatAddr_get g.mappings k hk o hlo hhi
  refine ⟨BufferSize_eq_sumSizes g, haddr, ?_⟩
  intro mem byte
  refine ⟨fun x => if x = (g.mappings.get ⟨k, hk⟩).addr + (o - prefixLen g.mappings k)
    then byte else mem x, ?_, ?_⟩
  · simp only [Write, haddr]
  · simp

/-- C6 (witness): a two-region buffer of lengths 2 and 3; flat offset 3 lands
in region 1 at local offset 1, i.e. guest address 101. -/
theorem Buffer_size_and_Write_flat_offset_witness :
    prefixLen [⟨0, 2⟩, ⟨100, 3⟩] 1 ≤ 3 ∧
    (⟨[⟨0, 2⟩, ⟨100, 3⟩]⟩ : GuestBuffer).BufferSize = sumSizes [⟨0, 2⟩, ⟨100, 3⟩] ∧
    mirrorAddr ⟨[⟨0, 2⟩, ⟨100, 3⟩]⟩ 3 = some 101 := by
  have h := Buffer_size_and_Write_flat_offset ⟨[⟨0, 2⟩, ⟨100, 3⟩]⟩ 1 3
    (by decide) (by decide) (by decide)
  refine ⟨by decide, h.1, ?_⟩
  rw [h.2.1]
  decide

/-- C10: `Buffer::Write` is an unguarded copy into the mirror: under the
precondition `offset + data.size() ≤ mirror length` every written byte
resolves inside the logical mirror (the out-of-range branch is unreachable),
while any out-of-range write is undefined (`none`) rather than rejected or
clamped by a bounds check. -/
theorem Write_defined_iff_in_bounds (g : GuestBuffer) (mem : Mem) (data : List Nat)
    (offset : Nat) :
    (offset + data.length ≤ mirrorSize g → (Write g mem offset data).isSome) ∧
    (data ≠ [] → mirrorSize g < offset + data.length → Write g mem offset data = none) :=
  ⟨Write_isSome g data mem offset, Write_none g data mem offset⟩

/-- C10 (witness): a 50-byte single-region buffer accepts a 2-byte write at
offset 10. -/
theorem Write_defined_iff_in_bounds_witness :
    10 + ([7, 8] : List Nat).length ≤ mirrorSize ⟨[⟨100, 50⟩]⟩ ∧
    (Write ⟨[⟨100, 50⟩]⟩ (fun _ => 0) 10 [7, 8]).isSome :=
  ⟨by decide,
    (Write_defined_iff_in_bounds ⟨[⟨100, 50⟩]⟩ (fun _ => 0) [7, 8] 10).1 (by decide)⟩

/-- Read side of `memcpy(host, mapping.data(), mappingSize)`: the bytes of
one guest region, in address order. -/
def readRegion (mem : Mem) (m : Mapping) : List Nat :=
  (List.range m.size).map (fun i => mem (m.addr + i))

/-- The guest→host copy loop of `SynchronizeHost`/`SynchronizeHostWithCycle`:
every region's bytes into the backing, concatenated in region order (the
`host` pointer advances by each region's size). -/
def readConcat (mem : Mem) (ms : List Mapping) : List Nat :=
  (ms.map (readRegion mem)).flatten

/-- `memcpy(mapping.data(), host, mappingSize)`: overwrite one guest region
with the given bytes. -/
def writeRegion (mem : Mem) (m : Mapping) (bytes : List Nat) : Mem :=
  fun a => if m.addr ≤ a ∧ a < m.addr + m.size then bytes.getD (a - m.addr) (mem a) else mem a

/-- The host→guest copy loop of `SynchronizeGuest`: write the backing bytes
back region by region, the `host` pointer advancing by each region's size. -/
def writeBack (mem : Mem) : List Mapping → List Nat → Mem
  | [], _ => mem
  | m :: rest, bytes =>
      writeBack (writeRegion mem m (bytes.take m.size)) rest (bytes.drop m.size)

/-- Buffer synchronization state: guest memory, host backing bytes, and the
weak reference to the pending `FenceCycle` (`none` when unset or expired). -/
structure BufState where
  mem : Mem
  backing : List Nat
  pending : Option Nat

/-- `Buffer::WaitOnFence`: block on the pending cycle if one is live, then
clear it.  The wait itself does not change the modelled memory. -/
def WaitOnFence (s : BufState) : BufState := { s with pending := none }

/-- `Buffer::SynchronizeHost`: call `WaitOnFence` unconditionally, then copy
every guest region into the backing in region order. -/
def SynchronizeHost (g : GuestBuffer) (s : BufState) : BufState :=
  let s1 := WaitOnFence s
  { s1 with backing := readConcat s1.mem g.mappings }

/-- `Buffer::SynchronizeHostWithCycle(pCycle)`: wait on the existing fence
only when `pCycle` differs from the currently pending cycle, then perform
the identical guest→host copy. -/
def SynchronizeHostWithCycle (g : GuestBuffer) (c : Nat) (s : BufState) : BufState :=
  let s1 := if some c ≠ s.pending then WaitOnFence s else s
  { s1 with backing := readConcat s1.mem g.mappings }

/-- `Buffer::SynchronizeGuest`: call `WaitOnFence`, then copy the backing
back into every guest region in order. -/
def SynchronizeGuest (g : GuestBuffer) (s : BufState) : BufState :=
  let s1 := WaitOnFence s
  { s1 with mem := writeBack s1.mem g.mappings s1.backing }

/-- Two guest spans do not overlap. -/
def MapDisjoint (m1 m2 : Mapping) : Prop :=
  m1.addr + m1.size ≤ m2.addr ∨ m2.addr + m2.size ≤ m1.addr

lemma readRegion_length (mem : Mem) (m : Mapping) : (readRegion mem m).length = m.size := by
  simp [readRegion]

lemma readRegion_getD (mem : Mem) (m : Mapping) (j : Nat) (hj : j < m.size) (d : Nat) :
    (readRegion mem m).getD j d = mem (m.addr + j) := by
  simp [readRegion, List.getD_eq_getElem?_getD, List.getElem?_map, List.getElem?_range, hj]

lemma writeRegion_self (mem : Mem) (m : Mapping) :
    writeRegion mem m (readRegion mem m) = mem := by
  funext a
  unfold writeRegion
  split
  · rename_i h
    rw [readRegion_getD mem m (a - m.addr) (by omega)]
    congr 1
    omega
  · rfl

lemma readConcat_cons (mem : Mem) (m : Mapping) (rest : List Mapping) :
    readConcat mem (m :: rest) = readRegion mem m ++ readConcat mem rest := by
  simp [readConcat]

lemma writeBack_readConcat (mem : Mem) (ms : List Mapping) :
    writeBack mem ms (readConcat mem ms) = mem := by
  induction ms with
  | nil => rfl
  | cons m rest ih =>
    show writeBack (writeRegion mem m ((readConcat mem (m :: rest)).take m.size)) rest
        ((readConcat mem (m :: rest)).drop m.size) = mem
    rw [readConcat_cons, ← readRegion_length mem m, List.take_left, List.drop_left,
      writeRegion_self]
    exact ih

/-- C5: `SynchronizeHostWithCycle(cycle)` is `SynchronizeHost` except for when
it waits: both write the identical region-order guest→host concatenation into
the backing and leave guest memory untouched, but the fenced variant skips
the wait (keeps the pending cycle un-consumed) exactly when `cycle` equals
the currently pending cycle, whereas `SynchronizeHost` always invokes
`WaitOnFence` (consuming any pending cycle). -/
theorem SynchronizeHostWithCycle_refines_SynchronizeHost (g : GuestBuffer) (s : BufState)
    (c : Nat) :
    SynchronizeHostWithCycle g c s =
      { SynchronizeHost g s with pending := if some c = s.pending then s.pending else none } ∧
    (SynchronizeHost g s).backing = readConcat s.mem g.mappings ∧
    (SynchronizeHostWithCycle g c s).backing = readConcat s.mem g.mappings ∧
    (SynchronizeHost g s).mem = s.mem ∧
    (SynchronizeHostWithCycle g c s).mem = s.mem ∧
    (SynchronizeHost g s).pending = none := by
  obtain ⟨mem, backing, pending⟩ := s
  by_cases h : some c = pending
  · simp [SynchronizeHostWithCycle, SynchronizeHost, WaitOnFence, h]
  · simp [SynchronizeHostWithCycle, SynchronizeHost, WaitOnFence, h]

/-- C4: with non-overlapping guest regions and no pending fence work,
`SynchronizeHost()` immediately followed by `SynchronizeGuest()` leaves every
guest region's content unchanged — the copy-in/copy-out round trip is the
identity on guest bytes. -/
theorem SynchronizeHost_then_Guest_roundtrip (g : GuestBuffer) (s : BufState)
    (hdisj : g.mappings.Pairwise MapDisjoint) (hpend : s.pending = none) :
    ∀ m ∈ g.mappings, ∀ i < m.size,
      (SynchronizeGuest g (SynchronizeHost g s)).mem (m.addr + i) = s.mem (m.addr + i) := by
  intro m _ i _
  show (writeBack s.mem g.mappings (readConcat s.mem g.mappings)) (m.addr + i) =
    s.mem (m.addr + i)
  rw [writeBack_readConcat]

/-- C4 (witness): a one-region buffer over `[0, 2)` with guest memory
`a ↦ a + 5`; the round trip leaves both guest bytes unchanged. -/
theorem SynchronizeHost_then_Guest_roundtrip_witness :
    ([⟨0, 2⟩] : List Mapping).Pairwise MapDisjoint ∧
    (⟨fun a => a + 5, [], none⟩ : BufState).pending = none ∧
    (∀ m ∈ ([⟨0, 2⟩] : List Mapping), ∀ i < m.size,
      (SynchronizeGuest ⟨[⟨0, 2⟩]⟩ (SynchronizeHost ⟨[⟨0, 2⟩]⟩
          ⟨fun a => a + 5, [], none⟩)).mem (m.addr + i) =
        (⟨fun a => a + 5, [], none⟩ : BufState).mem (m.addr + i)) :=
  ⟨by simp, rfl,
    SynchronizeHost_then_Guest_roundtrip ⟨[⟨0, 2⟩]⟩ ⟨fun a => a + 5, [], none⟩ (by simp) rfl⟩

/-- Deferred guest-sync state of one Buffer: the weak pending cycle
(`Buffer::cycle`), the cycles of the outstanding `BufferGuestSync` objects
attached and not yet run (in attach order), and the number of guest-direction
copies performed so far. -/
structure GuestSyncState where
  pending : Option Nat
  attached : List Nat
  guestCopies : Nat
deriving DecidableEq

/-- `Buffer::WaitOnFence` as seen by the deferred-sync model: waiting on a
live pending cycle completes it, which releases every `BufferGuestSync`
attached to it — each destructor performs its guest-direction copy — and
clears the pending cycle. -/
def gsWaitOnFence (s : GuestSyncState) : GuestSyncState :=
  match s.pending with
  | none => s
  | some c =>
      { pending := none
        attached := s.attached.filter (fun x => x != c)
        guestCopies := s.guestCopies + (s.attached.filter (fun x => x == c)).length }

/-- `Buffer::SynchronizeGuestWithCycle(pCycle)`: wait on the existing fence
if `pCycle` differs from the pending cycle, attach a new `BufferGuestSync`
(a deferred guest-direction copy) to `pCycle`, and set the pending cycle to
`pCycle`.  No guest copy for `pCycle` is performed during the call. -/
def SynchronizeGuestWithCycle (c : Nat) (s : GuestSyncState) : GuestSyncState :=
  let s1 := if s.pending = some c then s else gsWaitOnFence s
  { s1 with attached := s1.attached ++ [c], pending := some c }

/-- Operations on one Buffer's deferred-sync state: a
`SynchronizeGuestWithCycle` call, or the GPU completing a cycle (running
every `BufferGuestSync` attached to it). -/
inductive GsOp where
  | syncGuestCycle (c : Nat)
  | completeCycle (c : Nat)

def gsStep (s : GuestSyncState) : GsOp → GuestSyncState
  | .syncGuestCycle c => SynchronizeGuestWithCycle c s
  | .completeCycle c =>
      { s with attached := s.attached.filter (fun x => x != c),
               guestCopies := s.guestCopies + (s.attached.filter (fun x => x == c)).length }

/-- Initial deferred-sync state: no pending cycle, nothing attached. -/
def gsInit : GuestSyncState := ⟨none, [], 0⟩

/-- Run a sequence of operations from the initial state. -/
def gsRun (ops : List GsOp) : GuestSyncState := ops.foldl gsStep gsInit

lemma gsStep_inv (s : GuestSyncState) (op : GsOp)
    (h : ∀ x ∈ s.attached, s.pending = some x) :
    ∀ x ∈ (gsStep s op).attached, (gsStep s op).pending = some x := by
  cases op with
  | syncGuestCycle c =>
    intro x hx
    by_cases hp : s.pending = some c
    · simp only [gsStep, SynchronizeGuestWithCycle, if_pos hp, List.mem_append,
        List.mem_singleton] at hx ⊢
      rcases hx with hx | hx
      · have := h x hx
        rw [hp] at this
        injection this with he
        rw [he]
      · rw [hx]
    · simp only [gsStep, SynchronizeGuestWithCycle, if_neg hp] at hx ⊢
      cases hpd : s.pending with
      | none =>
        simp only [gsWaitOnFence, hpd, List.mem_append, List.mem_singleton] at hx ⊢
        rcases hx with hx | hx
        · exact absurd (h x hx) (by rw [hpd]; simp)
        · rw [hx]
      | some cOld =>
        simp only [gsWaitOnFence, hpd, List.mem_append, List.mem_singleton,
          List.mem_filter] at hx ⊢
        rcases hx with ⟨hx, hne⟩ | hx
        · have := h x hx
          rw [hpd] at this
          injection this with he
          simp [he] at hne
        · rw [hx]
  | completeCycle c =>
    intro x hx
    simp only [gsStep, List.mem_filter] at hx ⊢
    exact h x hx.1

lemma gsFold_inv (ops : List GsOp) :
    ∀ s : GuestSyncState, (∀ x ∈ s.attached, s.pending = some x) →
      ∀ x ∈ (ops.foldl gsStep s).attached, (ops.foldl gsStep s).pending = some x := by
  induction ops with
  | nil => intro s h; exact h
  | cons op ops ih => intro s h; exact ih (gsStep s op) (gsStep_inv s op h)

/-- C2 (counterexample): two `SynchronizeGuestWithCycle` calls with the same
still-pending cycle attach two deferred guest-update obligations to that one
cycle: after the sequence two `BufferGuestSync` objects are outstanding at
once, refuting "at most one outstanding deferred guest-update obligation
exists at a time" for arbitrary operation sequences. -/
theorem SynchronizeGuestWithCycle_double_obligation_cex :
    (gsRun [GsOp.syncGuestCycle 1, GsOp.syncGuestCycle 1]).attached = [1, 1] ∧
    (gsRun [GsOp.syncGuestCycle 1, GsOp.syncGuestCycle 1]).attached.length = 2 :=
  ⟨rfl, rfl⟩

/-- C2 (amended): `SynchronizeGuestWithCycle(cycle)` waits on the existing
fence exactly when `cycle` differs from the pending cycle (the only copies
performed during the call are the previously deferred ones released by that
wait — never `cycle`'s own), registers with `cycle` a deferred
guest-direction copy, and sets the pending cycle to `cycle`.  Every
outstanding deferred obligation is registered with the currently pending
cycle — so obligations of at most one cycle are outstanding at a time, and
more than one can accumulate only by repeating the currently pending
cycle. -/
theorem SynchronizeGuestWithCycle_contract (c : Nat) (s : GuestSyncState)
    (ops : List GsOp) :
    (SynchronizeGuestWithCycle c s).pending = some c ∧
    (SynchronizeGuestWithCycle c s).attached =
      (if s.pending = some c then s.attached else (gsWaitOnFence s).attached) ++ [c] ∧
    (SynchronizeGuestWithCycle c s).guestCopies = s.guestCopies +
      (if s.pending = some c then 0 else
        match s.pending with
        | none => 0
        | some cOld => (s.attached.filter (fun x => x == cOld)).length) ∧
    (∀ x ∈ (gsRun ops).attached, (gsRun ops).pending = some x) ∧
    (∀ x ∈ (gsRun ops).attached, ∀ y ∈ (gsRun ops).attached, x = y) := by
  have hrun : ∀ x ∈ (gsRun ops).attached, (gsRun ops).pending = some x :=
    gsFold_inv ops gsInit (by intro x hx; simp [gsInit] at hx)
  refine ⟨?_, ?_, ?_, hrun, ?_⟩
  · simp [SynchronizeGuestWithCycle]
  · by_cases hp : s.pending = some c
    · simp [SynchronizeGuestWithCycle, hp]
    · simp [SynchronizeGuestWithCycle, hp]
  · by_cases hp : s.pending = some c
    · simp [SynchronizeGuestWithCycle, hp]
    · cases hpd : s.pending with
      | none => simp [SynchronizeGuestWithCycle, hp, gsWaitOnFence, hpd]
      | some cOld =>
        have hne : cOld ≠ c := by
          intro he
          rw [hpd, he] at hp
          exact hp rfl
        simp [SynchronizeGuestWithCycle, hp, gsWaitOnFence, hpd, hne]
  · intro x hx y hy
    have h1 := hrun x hx
    have h2 := hrun y hy
    rw [h1] at h2
    exact Option.some.inj h2

lemma writeRegion_notouch (mem : Mem) (m : Mapping) (bytes : List Nat) (a : Nat)
    (h : a < m.addr ∨ m.addr + m.size ≤ a) : writeRegion mem m bytes a = mem a := by
  unfold writeRegion
  rw [if_neg (by omega)]

lemma writeBack_notouch (ms : List Mapping) (bytes : List Nat) (mem : Mem) (a : Nat)
    (h : ∀ m ∈ ms, a < m.addr ∨ m.addr + m.size ≤ a) :
    writeBack mem ms bytes a = mem a := by
  induction ms generalizing mem bytes with
  | nil => rfl
  | cons m rest ih =>
    show writeBack (writeRegion mem m (bytes.take m.size)) rest (bytes.drop m.size) a = mem a
    rw [ih _ _ (fun m' hm' => h m' (List.mem_cons_of_mem m hm'))]
    exact writeRegion_notouch mem m _ a (h m (List.mem_cons_self m rest))

lemma getD_take (bytes : List Nat) (n i d : Nat) (h : i < n) :
    (bytes.take n).getD i d = bytes.getD i d := by
  simp [List.getD_eq_getElem?_getD, List.getElem?_take, h]

lemma getD_drop (bytes : List Nat) (n i d : Nat) :
    (bytes.drop n).getD i d = bytes.getD (n + i) d := by
  simp [List.getD_eq_getElem?_getD, List.getElem?_drop]

lemma getD_default_irrel (l : List Nat) (i d1 d2 : Nat) (h : i < l.length) :
    l.getD i d1 = l.getD i d2 := by
  simp [List.getD_eq_getElem?_getD, List.getElem?_eq_getElem h]

lemma writeBack_getD (ms : List Mapping) (hd : ms.Pairwise MapDisjoint) (mem : Mem)
    (bytes : List Nat) (k : Nat) (hk : k < ms.length) (i : Nat)
    (hi : i < (ms.get ⟨k, hk⟩).size) (hlen : sumSizes ms ≤ bytes.length) :
    writeBack mem ms bytes ((ms.get ⟨k, hk⟩).addr + i) =
      bytes.getD (prefixLen ms k + i) 0 := by
  induction ms generalizing mem bytes k with
  | nil => simp at hk
  | cons m rest ih =>
    rw [List.pairwise_cons] at hd
    rw [sumSizes_cons] at hlen
    cases k with
    | zero =>
      have hi' : i < m.size := hi
      show writeBack (writeRegion mem m (bytes.take m.size)) rest (bytes.drop m.size)
        (m.addr + i) = bytes.getD (prefixLen (m :: rest) 0 + i) 0
      rw [writeBack_notouch rest _ _ _ (fun m' hm' => by
        rcases hd.1 m' hm' with h1 | h2
        · left; omega
        · right; omega)]
      unfold writeRegion
      rw [if_pos ⟨Nat.le_add_right m.addr i, by omega⟩]
      have hsub : m.addr + i - m.addr = i := by omega
      rw [hsub, getD_take _ _ _ _ hi']
      have hpre : prefixLen (m :: rest) 0 + i = i := by
        simp [prefixLen, sumSizes]
      rw [hpre]
      exact getD_default_irrel bytes i _ 0 (by omega)
    | succ k =>
      have hk' : k < rest.length := by simpa using hk
      have hi' : i < (rest.get ⟨k, hk'⟩).size := hi
      show writeBack (writeRegion mem m (bytes.take m.size)) rest (bytes.drop m.size)
        ((rest.get ⟨k, hk'⟩).addr + i) = bytes.getD (prefixLen (m :: rest) (k + 1) + i) 0
      rw [ih hd.2 _ _ k hk' hi' (by simp [List.length_drop]; omega)]
      rw [getD_drop]
      congr 1
      have hpre : prefixLen (m :: rest) (k + 1) = m.size + prefixLen rest k := by
        simp [prefixLen, sumSizes_cons]
      rw [hpre]
      omega

/-- Destructor-time state of a Buffer: guest memory, host backing, the
outstanding GPU work (the bytes the GPU will have deposited in the backing by
the time the pending fence signals; `none` when no work is outstanding), and
whether the aligned mirror mapping is currently mapped. -/
structure DtorState where
  mem : Mem
  backing : List Nat
  pendingWork : Option (List Nat)
  mirrorMapped : Bool

/-- `Buffer::WaitOnFence` at teardown: waiting for outstanding GPU work makes
its writes visible in the host backing and consumes the fence. -/
def waitOnFenceDtor (s : DtorState) : DtorState :=
  match s.pendingWork with
  | none => s
  | some w => { s with backing := w, pendingWork := none }

/-- Modelled from the spec: the `forced = true` guest synchronization invoked
by `Buffer::~Buffer` as `SynchronizeGuest(true)`.  The boolean parameter is
declared in `buffer.h`, which is not among the given sources; per the spec it
means the synchronization "must wait for any outstanding fence even though
the Buffer is being torn down", so the forced variant waits on the fence and
then copies the backing back into every guest region in order. -/
def SynchronizeGuestForced (g : GuestBuffer) (s : DtorState) : DtorState :=
  let s1 := waitOnFenceDtor s
  { s1 with mem := writeBack s1.mem g.mappings s1.backing }

/-- `Buffer::~Buffer`: under the Buffer's lock, perform the forced
guest-direction synchronization, then `munmap` the aligned mirror if one was
established. -/
def BufferDestructor (g : GuestBuffer) (s : DtorState) : DtorState :=
  let s1 := SynchronizeGuestForced g s
  if s1.mirrorMapped then { s1 with mirrorMapped := false } else s1

/-- C8: destroying a Buffer forces a guest-direction synchronization that
waits for outstanding GPU work even during teardown: afterwards every guest
region byte equals the corresponding byte of the final host backing (the
bytes the outstanding GPU work produced), so no GPU-visible write is lost;
the fence is consumed, and the mirror mapping is released. -/
theorem Buffer_destructor_contract (g : GuestBuffer) (s : DtorState) (w : List Nat)
    (hd : g.mappings.Pairwise MapDisjoint)
    (hw : s.pendingWork = some w)
    (hlen : sumSizes g.mappings ≤ w.length) :
    (∀ (k : Nat) (hk : k < g.mappings.length) (i : Nat),
      i < (g.mappings.get ⟨k, hk⟩).size →
      (BufferDestructor g s).mem ((g.mappings.get ⟨k, hk⟩).addr + i) =
        w.getD (prefixLen g.mappings k + i) 0) ∧
    (BufferDestructor g s).pendingWork = none ∧
    (BufferDestructor g s).mirrorMapped = false := by
  have hstate : SynchronizeGuestForced g s =
      { mem := writeBack s.mem g.mappings w, backing := w, pendingWork := none,
        mirrorMapped := s.mirrorMapped } := by
    simp [SynchronizeGuestForced, waitOnFenceDtor, hw]
  have hfinal : BufferDestructor g s =
      { mem := writeBack s.mem g.mappings w, backing := w, pendingWork := none,
        mirrorMapped := false } := by
    unfold BufferDestructor
    rw [hstate]
    by_cases hmm : s.mirrorMapped <;> simp [hmm]
  rw [hfinal]
  refine ⟨?_, rfl, rfl⟩
  intro k hk i hi
  exact writeBack_getD g.mappings hd s.mem w k hk i hi hlen

/-- C8 (witness): a one-byte single-region Buffer destroyed while GPU work
writing byte 42 is outstanding; after destruction the guest byte is 42, the
fence is consumed and the mirror is unmapped. -/
theorem Buffer_destructor_contract_witness :
    ([⟨0, 1⟩] : List Mapping).Pairwise MapDisjoint ∧
    (⟨fun _ => 0, [9], some [42], true⟩ : DtorState).pendingWork = some [42] ∧
    sumSizes [⟨0, 1⟩] ≤ ([42] : List Nat).length ∧
    ((∀ (k : Nat) (hk : k < ([⟨0, 1⟩] : List Mapping).length) (i : Nat),
      i < (([⟨0, 1⟩] : List Mapping).get ⟨k, hk⟩).size →
      (BufferDestructor ⟨[⟨0, 1⟩]⟩ ⟨fun _ => 0, [9], some [42], true⟩).mem
          ((([⟨0, 1⟩] : List Mapping).get ⟨k, hk⟩).addr + i) =
        ([42] : List Nat).getD (prefixLen [⟨0, 1⟩] k + i) 0) ∧
    (BufferDestructor ⟨[⟨0, 1⟩]⟩ ⟨fun _ => 0, [9], some [42], true⟩).pendingWork = none ∧
    (BufferDestructor ⟨[⟨0, 1⟩]⟩ ⟨fun _ => 0, [9], some [42], true⟩).mirrorMapped = false) :=
  ⟨by simp, rfl, by decide,
    Buffer_destructor_contract ⟨[⟨0, 1⟩]⟩ ⟨fun _ => 0, [9], some [42], true⟩ [42]
      (by simp) rfl (by decide)⟩

/-- The data of one `BufferView`: the `(offset, range, format)` key triple
plus an identity distinguishing separately constructed views. -/
structure BufferViewData where
  offset : Nat
  range : Nat
  format : Nat
  id : Nat
deriving DecidableEq

/-- `view && view->offset == offset && view->range == range &&
view->format == format`: does a weak cache entry hold a live view matching
the triple exactly?  (`none` models an expired weak reference.) -/
def matchesB (offset range format : Nat) (w : Option BufferViewData) : Bool :=
  match w with
  | some v => v.offset == offset && v.range == range && v.format == format
  | none => false

/-- The scan loop of `Buffer::GetView`: the first live cache entry matching
the triple exactly.  Dead entries are skipped — and left in place. -/
def findView (views : List (Option BufferViewData)) (offset range format : Nat) :
    Option BufferViewData :=
  match views with
  | [] => none
  | w :: rest => if matchesB offset range format w then w else findView rest offset range format

/-- `Buffer::GetView(offset, range, format)`: return the first live cached
view with the exact same triple; otherwise construct a new view (fresh
identity), append a weak reference to it to the cache, and return it. -/
def GetView (views : List (Option BufferViewData)) (offset range format fresh : Nat) :
    BufferViewData × List (Option BufferViewData) :=
  match findView views offset range format with
  | some v => (v, views)
  | none => (⟨offset, range, format, fresh⟩, views ++ [some ⟨offset, range, format, fresh⟩])

lemma findView_mem_matches (views : List (Option BufferViewData))
    (offset range format : Nat) (v : BufferViewData)
    (h : findView views offset range format = some v) :
    some v ∈ views ∧ matchesB offset range format (some v) = true := by
  induction views with
  | nil => simp [findView] at h
  | cons w rest ih =>
    by_cases hm : matchesB offset range format w
    · rw [findView, if_pos hm] at h
      subst h
      exact ⟨List.mem_cons_self _ _, hm⟩
    · rw [findView, if_neg hm] at h
      obtain ⟨h1, h2⟩ := ih h
      exact ⟨List.mem_cons_of_mem w h1, h2⟩

lemma findView_none_filter (views : List (Option BufferViewData))
    (offset range format : Nat) (h : findView views offset range format = none) :
    views.filter (matchesB offset range format) = [] := by
  induction views with
  | nil => rfl
  | cons w rest ih =>
    by_cases hm : matchesB offset range format w
    · rw [findView, if_pos hm] at h
      cases w with
      | none => simp [matchesB] at hm
      | some v => simp at h
    · rw [findView, if_neg hm] at h
      rw [List.filter_cons]
      simp only [hm, if_false, Bool.false_eq_true]
      exact ih h

/-- C7 (counterexample): a cache holding one dead weak reference.  The scan
of `GetView` encounters the dead entry but does not prune it: after the call
the dead entry is still in the cache (followed by the newly appended view),
refuting the claim that dead weak references encountered during the scan are
pruned. -/
theorem GetView_no_prune_cex :
    (GetView [none] 0 1 2 9).2 = [none, some ⟨0, 1, 2, 9⟩] ∧
    none ∈ (GetView [none] 0 1 2 9).2 :=
  ⟨rfl, by decide⟩

/-- C7 (amended): `GetView` scans the cache for a live entry matching the
triple exactly, skipping (but not pruning) dead weak references; on a hit it
returns the existing view and leaves the cache unchanged, otherwise it
constructs a new view, appends a weak reference to the cache and returns it.
For every triple, if at most one live cached view matches it beforehand, at
most one matches afterwards, and the requested triple subsequently resolves
to the view just returned — so for a fixed Buffer at most one live view per
distinct triple exists, and an equal request returns the live existing
view. -/
theorem GetView_dedup (views : List (Option BufferViewData))
    (offset range format fresh : Nat) :
    (∀ v, findView views offset range format = some v →
      GetView views offset range format fresh = (v, views) ∧ some v ∈ views ∧
        v.offset = offset ∧ v.range = range ∧ v.format = format) ∧
    (findView views offset range format = none →
      GetView views offset range format fresh =
        (⟨offset, range, format, fresh⟩,
          views ++ [some ⟨offset, range, format, fresh⟩])) ∧
    (∀ o r f, (views.filter (matchesB o r f)).length ≤ 1 →
      (((GetView views offset range format fresh).2.filter (matchesB o r f)).length ≤ 1)) ∧
    (findView (GetView views offset range format fresh).2 offset range format =
      some (GetView views offset range format fresh).1) := by
  refine ⟨?_, ?_, ?_, ?_⟩
  · intro v hv
    obtain ⟨hmem, hmatch⟩ := findView_mem_matches views offset range format v hv
    simp only [matchesB, Bool.and_eq_true, beq_iff_eq] at hmatch
    exact ⟨by simp [GetView, hv], hmem, hmatch.1.1, hmatch.1.2, hmatch.2⟩
  · intro hn
    simp [GetView, hn]
  · intro o r f hle
    cases hfind : findView views offset range format with
    | some v => simpa [GetView, hfind] using hle
    | none =>
      simp only [GetView, hfind, List.filter_append]
      by_cases hm : matchesB o r f (some ⟨offset, range, format, fresh⟩)
      · have hsame : offset = o ∧ range = r ∧ format = f := by
          simpa [matchesB, Bool.and_eq_true, beq_iff_eq, and_assoc] using hm
        obtain ⟨ho, hr, hf⟩ := hsame
        subst ho; subst hr; subst hf
        rw [findView_none_filter views offset range format hfind]
        simp [hm]
      · simp only [List.filter_cons, hm]
        simpa using hle
  · cases hfind : findView views offset range format with
    | some v =>
      simp [GetView, hfind]
    | none =>
      simp only [GetView, hfind]
      have hfilter := findView_none_filter views offset range format hfind
      clear hfind
      induction views with
      | nil => simp [findView, matchesB]
      | cons w rest ih =>
        rw [List.filter_cons] at hfilter
        by_cases hm : matchesB offset range format w
        · simp [hm] at hfilter
        · simp only [hm, Bool.false_eq_true, if_false] at hfilter
          rw [List.cons_append, findView, if_neg hm]
          exact ih hfilter

/-- C7 (witness): requesting the triple `(0, 1, 2)` from a cache already
holding a live view for it returns that view and leaves the cache
unchanged. -/
theorem GetView_dedup_witness :
    findView [some ⟨0, 1, 2, 5⟩] 0 1 2 = some ⟨0, 1, 2, 5⟩ ∧
    GetView [some ⟨0, 1, 2, 5⟩] 0 1 2 9 = (⟨0, 1, 2, 5⟩, [some ⟨0, 1, 2, 5⟩]) :=
  ⟨by decide,
    ((GetView_dedup [some ⟨0, 1, 2, 5⟩] 0 1 2 9).1 ⟨0, 1, 2, 5⟩ (by decide)).1⟩

/-- C9 (counterexample): no geometry violation is signalled.  On a Buffer of
size 10, a `GetView` request for `(offset 100, range 100)` — far beyond the
buffer — proceeds normally: a view for exactly that range is constructed,
cached and returned, with no invalid-argument failure; likewise Buffer
construction accepts overlapping regions. -/
theorem GetView_out_of_range_cex :
    (⟨[⟨0, 10⟩]⟩ : GuestBuffer).BufferSize = 10 ∧
    (GetView [] 100 100 0 7).1 = ⟨100, 100, 0, 7⟩ ∧
    (GetView [] 100 100 0 7).2 = [some ⟨100, 100, 0, 7⟩] ∧
    (SetupGuestMappings ⟨[⟨0, 100⟩, ⟨50, 100⟩]⟩).isSome = true :=
  ⟨by decide, rfl, rfl, by decide⟩

/-- C9 (amended): none of the geometry violations is detected or signalled:
`GetView` performs no range check and always constructs/returns a view
carrying exactly the requested triple, whatever its relation to the buffer
size; Buffer construction accepts every non-empty region set (overlapping or
not) without complaint; and an empty region set reaches undefined behaviour
(`mappings.front()` on an empty container, modelled as `none`) rather than a
signalled invalid-argument failure. -/
theorem no_geometry_validation (views : List (Option BufferViewData))
    (offset range format fresh : Nat) (g : GuestBuffer) (hne : g.mappings ≠ []) :
    ((GetView views offset range format fresh).1.offset = offset ∧
     (GetView views offset range format fresh).1.range = range ∧
     (GetView views offset range format fresh).1.format = format) ∧
    (SetupGuestMappings g).isSome ∧
    SetupGuestMappings ⟨[]⟩ = none := by
  refine ⟨?_, ?_, rfl⟩
  · cases hfind : findView views offset range format with
    | some v =>
      obtain ⟨_, hmatch⟩ := findView_mem_matches views offset range format v hfind
      simp only [matchesB, Bool.and_eq_true, beq_iff_eq] at hmatch
      simp [GetView, hfind, hmatch.1.1, hmatch.1.2, hmatch.2]
    | none => simp [GetView, hfind]
  · obtain ⟨ms⟩ := g
    match ms with
    | [] => exact absurd rfl hne
    | [m] => simp [SetupGuestMappings]
    | f :: r :: rs => simp [SetupGuestMappings]

/-- C9 (witness): on the size-10 Buffer, the out-of-range view request
`(100, 100)` yields a view carrying exactly that range, and construction of
the buffer succeeds. -/
theorem no_geometry_validation_witness :
    (⟨[⟨0, 10⟩]⟩ : GuestBuffer).mappings ≠ [] ∧
    (((GetView [] 100 100 0 7).1.offset = 100 ∧
      (GetView [] 100 100 0 7).1.range = 100 ∧
      (GetView [] 100 100 0 7).1.format = 0) ∧
     (SetupGuestMappings ⟨[⟨0, 10⟩]⟩).isSome ∧
     SetupGuestMappings ⟨[]⟩ = none) :=
  ⟨by simp, no_geometry_validation [] 100 100 0 7 ⟨[⟨0, 10⟩]⟩ (by simp)⟩

/-- Control point of the `BufferView::lock` / `BufferView::try_lock`
protocols together with the thread's local variables (`backing`,
`latestBacking`, and for `try_lock` the acquisition result `success`). -/
inductive LockPhase where
  | start
  | retry (backing : Nat)
  | locked (backing : Nat)
  | reloaded (backing latest : Nat)
  | done (backing : Nat)
  | tstart
  | tretry (backing : Nat)
  | ttried (backing : Nat) (success : Bool)
  | treloaded (backing : Nat) (success : Bool) (latest : Nat)
  | tdone (result : Bool) (backing : Nat)
deriving DecidableEq

/-- State of one `BufferView` locking attempt interleaved with an
environment that may atomically replace the view's buffer reference: the
buffer currently referenced (the target of `std::atomic_load(&buffer)`), the
protocol thread's control point, and the buffer mutexes held by the protocol
thread. -/
structure LockSys where
  bufRef : Nat
  phase : LockPhase
  held : List Nat
deriving DecidableEq

/-- Small-step transitions: the individual atomic actions of
`BufferView::lock` (load the reference, acquire the mutex, re-load, then
either compare-equal-and-return or unlock-and-retry with the newer backing)
and of `BufferView::try_lock` (the same with a non-blocking acquisition that
may fail, unlocking on retry only if the attempt succeeded), plus the
environment's atomic replacement of the buffer reference (`swap`), which may
occur between any two protocol steps. -/
inductive LStep : LockSys → LockSys → Prop where
  | load (s : LockSys) : s.phase = .start → LStep s { s with phase := .retry s.bufRef }
  | acquire (s : LockSys) (b : Nat) : s.phase = .retry b →
      LStep s { s with phase := .locked b, held := s.held ++ [b] }
  | reload (s : LockSys) (b : Nat) : s.phase = .locked b →
      LStep s { s with phase := .reloaded b s.bufRef }
  | retOk (s : LockSys) (b : Nat) : s.phase = .reloaded b b →
      LStep s { s with phase := .done b }
  | retFail (s : LockSys) (b l : Nat) : s.phase = .reloaded b l → b ≠ l →
      LStep s { s with phase := .retry l, held := s.held.erase b }
  | tload (s : LockSys) : s.phase = .tstart → LStep s { s with phase := .tretry s.bufRef }
  | tacquireOk (s : LockSys) (b : Nat) : s.phase = .tretry b →
      LStep s { s with phase := .ttried b true, held := s.held ++ [b] }
  | tacquireFail (s : LockSys) (b : Nat) : s.phase = .tretry b →
      LStep s { s with phase := .ttried b false }
  | treload (s : LockSys) (b : Nat) (r : Bool) : s.phase = .ttried b r →
      LStep s { s with phase := .treloaded b r s.bufRef }
  | tretStable (s : LockSys) (b : Nat) (r : Bool) : s.phase = .treloaded b r b →
      LStep s { s with phase := .tdone r b }
  | tretryChanged (s : LockSys) (b l : Nat) (r : Bool) : s.phase = .treloaded b r l →
      b ≠ l →
      LStep s { s with phase := .tretry l, held := if r then s.held.erase b else s.held }
  | swap (s : LockSys) (n : Nat) : LStep s { s with bufRef := n }

/-- The mutexes the protocol holds at each control point. -/
def heldOf : LockPhase → List Nat
  | .locked b => [b]
  | .reloaded b _ => [b]
  | .done b => [b]
  | .ttried b r => if r then [b] else []
  | .treloaded b r _ => if r then [b] else []
  | .tdone r b => if r then [b] else []
  | _ => []

/-- Reachability under protocol and environment steps. -/
def LReach : LockSys → LockSys → Prop := Relation.ReflTransGen LStep

lemma lstep_heldOf (s t : LockSys) (hstep : LStep s t) (hinv : s.held = heldOf s.phase) :
    t.held = heldOf t.phase := by
  cases hstep with
  | load h => simp_all [heldOf]
  | acquire b h => simp_all [heldOf]
  | reload b h => simp_all [heldOf]
  | retOk b h => simp_all [heldOf]
  | retFail b l h hne => simp_all [heldOf]
  | tload h => simp_all [heldOf]
  | tacquireOk b h => simp_all [heldOf]
  | tacquireFail b h => simp_all [heldOf]
  | treload b r h => cases r <;> simp_all [heldOf]
  | tretStable b r h => cases r <;> simp_all [heldOf]
  | tretryChanged b l r h hne => cases r <;> simp_all [heldOf]
  | swap n => simp_all [heldOf]

lemma lreach_heldOf (s0 s : LockSys) (h : LReach s0 s)
    (h0 : s0.held = heldOf s0.phase) : s.held = heldOf s.phase := by
  induction h with
  | refl => exact h0
  | tail hsteps hstep ih => exact lstep_heldOf _ _ hstep ih

lemma heldOf_length (ph : LockPhase) : (heldOf ph).length ≤ 1 := by
  cases ph <;> simp only [heldOf] <;> first
  | simp
  | (split <;> simp)

/-- C3 (counterexample): a legal interleaving in which `lock()` returns
successfully held while the view's buffer reference no longer matches the
held mutex: the protocol loads reference 1, acquires buffer 1's mutex,
re-loads the reference (still 1); the environment then swaps the reference
to buffer 2; the compare of the two *local* values still succeeds, so the
call returns — holding buffer 1's mutex while the view's reference is
buffer 2.  A swap thus intervenes between the re-check load and the return,
so at the moment the call returns the held mutex is not the mutex of the
Buffer currently referenced. -/
theorem BufferView_lock_return_swap_cex :
    LStep ⟨1, .start, []⟩ ⟨1, .retry 1, []⟩ ∧
    LStep ⟨1, .retry 1, []⟩ ⟨1, .locked 1, [1]⟩ ∧
    LStep ⟨1, .locked 1, [1]⟩ ⟨1, .reloaded 1 1, [1]⟩ ∧
    LStep ⟨1, .reloaded 1 1, [1]⟩ ⟨2, .reloaded 1 1, [1]⟩ ∧
    LStep ⟨2, .reloaded 1 1, [1]⟩ ⟨2, .done 1, [1]⟩ ∧
    (⟨2, .done 1, [1]⟩ : LockSys).held = [1] ∧
    (⟨2, .done 1, [1]⟩ : LockSys).bufRef = 2 := by
  refine ⟨?_, ?_, ?_, ?_, ?_, rfl, rfl⟩
  · exact LStep.load _ rfl
  · exact LStep.acquire _ 1 rfl
  · exact LStep.reload _ 1 rfl
  · exact LStep.swap _ 2
  · exact LStep.retOk _ 1 rfl

/-- C3 (amended): in every reachable state of the locking protocol the
thread holds at most one buffer mutex (exactly the one prescribed by its
control point); whenever the re-check load of `lock()` observes the same
backing that was locked, *at the moment of that load* the held mutex is the
mutex of the buffer currently referenced; and `try_lock` reaches its return
point only from a re-check that observed an unchanged buffer reference,
returning with the mutex held exactly when the acquisition succeeded. -/
theorem BufferView_lock_protocol (s0 s : LockSys) (h : LReach s0 s)
    (h0 : s0.held = heldOf s0.phase) :
    (s.held = heldOf s.phase ∧ s.held.length ≤ 1) ∧
    (∀ t b, LStep s t → s.phase = .locked b → t.phase = .reloaded b b →
      t.bufRef = b ∧ t.held = [b]) ∧
    (∀ t (r : Bool) b, LStep s t → t.phase = .tdone r b →
      s.phase = .treloaded b r b ∨ s.phase = .tdone r b) ∧
    (∀ (r : Bool) b, s.phase = .tdone r b → s.held = if r then [b] else []) := by
  have hinv := lreach_heldOf s0 s h h0
  refine ⟨⟨hinv, hinv ▸ heldOf_length s.phase⟩, ?_, ?_, ?_⟩
  · intro t b hstep hlocked hrel
    cases hstep with
    | load h => simp_all
    | acquire b h => simp_all
    | reload b h => simp_all [heldOf]
    | retOk b h => simp_all
    | retFail b l h hne => simp_all
    | tload h => simp_all
    | tacquireOk b h => simp_all
    | tacquireFail b h => simp_all
    | treload b r h => simp_all
    | tretStable b r h => simp_all
    | tretryChanged b l r h hne => simp_all
    | swap n => simp_all
  · intro t r b hstep ht
    cases hstep with
    | load h => simp_all
    | acquire b h => simp_all
    | reload b h => simp_all
    | retOk b h => simp_all
    | retFail b l h hne => simp_all
    | tload h => simp_all
    | tacquireOk b h => simp_all
    | tacquireFail b h => simp_all
    | treload b r h => simp_all
    | tretStable b r h =>
      left
      simp_all
    | tretryChanged b l r h hne => simp_all
    | swap n =>
      right
      simp_all
  · intro r b hph
    rw [hinv, hph]
    rfl

/-- C3 (witness): the initial state of a `lock()` call, holding no mutex,
satisfies the protocol invariants. -/
theorem BufferView_lock_protocol_witness :
    (⟨7, LockPhase.start, []⟩ : LockSys).held =
      heldOf (⟨7, LockPhase.start, []⟩ : LockSys).phase ∧
    (((⟨7, LockPhase.start, []⟩ : LockSys).held =
        heldOf (⟨7, LockPhase.start, []⟩ : LockSys).phase ∧
      (⟨7, LockPhase.start, []⟩ : LockSys).held.length ≤ 1) ∧
     (∀ t b, LStep ⟨7, LockPhase.start, []⟩ t →
        (⟨7, LockPhase.start, []⟩ : LockSys).phase = .locked b →
        t.phase = .reloaded b b → t.bufRef = b ∧ t.held = [b]) ∧
     (∀ t (r : Bool) b, LStep ⟨7, LockPhase.start, []⟩ t → t.phase = .tdone r b →
        (⟨7, LockPhase.start, []⟩ : LockSys).phase = .treloaded b r b ∨
          (⟨7, LockPhase.start, []⟩ : LockSys).phase = .tdone r b) ∧
     (∀ (r : Bool) b, (⟨7, LockPhase.start, []⟩ : LockSys).phase = .tdone r b →
        (⟨7, LockPhase.start, []⟩ : LockSys).held = if r then [b] else [])) :=
  ⟨rfl, BufferView_lock_protocol ⟨7, LockPhase.start, []⟩ ⟨7, LockPhase.start, []⟩
    Relation.ReflTransGen.refl rfl⟩

end Skyline
